import Mathlib

/-
Verification of the adaptive benchmarking core of Tobo-Cogs `tobodebug/timeit.py`.

The development shallowly embeds the algorithmic parts of the module:
  * `getMaxCount` / `maxCountOr`  — the budget decay policy `_get_max_count`
    together with the `or max_count` fallback used at its call sites;
  * `runFuncLoop` / `runCoroLoop` — the sampling loops of
    `_evaluate_func_speed` and `_evaluate_coro_speed`, with the timed
    callable modelled as the stream `d : ℕ → ℚ` of per-invocation durations
    (`d i` is the wall-clock duration measured for invocation `i`);
  * a faithful model of `_get_time_spec`, including the `decimal` module's
    conversion from a binary float, rounding to the 8-digit context,
    `normalize`, `to_eng_string`, and the final string surgery;
  * the message dispatch of the `timeit` command body (timeout notice,
    error box, statistics report).

Durations and thresholds are embedded as rationals; every numeric literal
compared against (1.0, 3.0, 5.0, 7.5, 10.0, 12.0, 15.0) is exactly
representable in binary64, so the float comparisons of the source coincide
with the rational ones.  A finite non-negative binary64 input to the
formatter is passed as the pair `(n, k)` denoting the exact value
`n / 2 ^ k` in lowest terms, exactly as Python's `float.as_integer_ratio`
produces it.
-/

namespace TimeIt

/-! ### Budget policy: `_get_max_count` (timeit.py lines 169-181) -/

/-- `_get_max_count(time_passed)`: the decay table.  Falling through every
branch returns Python `None`, modelled as `none`. -/
def getMaxCount (t : ℚ) : Option ℕ :=
  if t > 12 then some 1
  else if t > 10 then some 10
  else if t > 15/2 then some 100
  else if t > 5 then some 500
  else if t > 3 then some 1000
  else if t > 1 then some 10000
  else none

/-- `_get_max_count(time_passed) or max_count`: the call-site idiom keeping
the previous ceiling when the table declines to answer. -/
def maxCountOr (t : ℚ) (prev : ℕ) : ℕ :=
  (getMaxCount t).getD prev

/-- The ceiling as a function of elapsed time alone, starting from the
initial ceiling 100000. -/
def budgetCeiling (t : ℚ) : ℕ :=
  maxCountOr t 100000

/-! ### The sampling loops (timeit.py lines 131-166) -/

/-- Loop state of `_evaluate_func_speed` / `_evaluate_coro_speed`:
the `times` list (in invocation order), `time_passed`, `max_count`. -/
structure LoopSt where
  times : List ℚ
  timePassed : ℚ
  maxCount : ℕ
deriving Repr, DecidableEq

/-- `times = []; time_passed = 0.0; max_count = 100000` -/
def initSt : LoopSt := ⟨[], 0, 100000⟩

/-- One iteration of the `_evaluate_func_speed` loop body:
`max_count = _get_max_count(time_passed) or max_count` (computed from the
elapsed time *before* this invocation), then `_time = _time_func()`,
`times.append(_time)`, `time_passed += _time`. -/
def funcStep (d : ℕ → ℚ) (s : LoopSt) : LoopSt :=
  let m := maxCountOr s.timePassed s.maxCount
  let t := d s.times.length
  ⟨s.times ++ [t], s.timePassed + t, m⟩

/-- The `while len(times) < max_count` loop of `_evaluate_func_speed`.
The loop needs at most 100000 iterations (the ceiling never exceeds
100000), so any fuel of at least 100001 realises the `while` exactly. -/
def runFuncLoop (d : ℕ → ℚ) : ℕ → LoopSt → LoopSt
  | 0, s => s
  | fuel + 1, s =>
    if s.times.length < s.maxCount then runFuncLoop d fuel (funcStep d s) else s

/-- `_evaluate_func_speed`: run the loop, `return tuple(sorted(times))`. -/
def evaluateFuncSpeed (d : ℕ → ℚ) : List ℚ :=
  List.insertionSort (· ≤ ·) (runFuncLoop d 100001 initSt).times

/-- One iteration of the `_evaluate_coro_speed` loop body (textually the
same state transformation as `funcStep`; the source differs only in
`await`). -/
def coroStep (d : ℕ → ℚ) (s : LoopSt) : LoopSt :=
  let m := maxCountOr s.timePassed s.maxCount
  let t := d s.times.length
  ⟨s.times ++ [t], s.timePassed + t, m⟩

/-- The `while len(times) < max_count` loop of `_evaluate_coro_speed`. -/
def runCoroLoop (d : ℕ → ℚ) : ℕ → LoopSt → LoopSt
  | 0, s => s
  | fuel + 1, s =>
    if s.times.length < s.maxCount then runCoroLoop d fuel (coroStep d s) else s

/-- `_evaluate_coro_speed`: run the loop, `return tuple(sorted(times))`. -/
def evaluateCoroSpeed (d : ℕ → ℚ) : List ℚ :=
  List.insertionSort (· ≤ ·) (runCoroLoop d 100001 initSt).times

/-! ### Closed-form trace of the loop -/

/-- Cumulative elapsed time after the first `n` samples. -/
def elapsedAfter (d : ℕ → ℚ) (n : ℕ) : ℚ :=
  (((List.range n).map d).sum)

/-- The ceiling in force at the guard check after `n` samples:
`ceilAt d 0 = 100000`, and the ceiling for the check after `n + 1` samples
was recomputed at the top of iteration `n + 1` from the elapsed time of the
first `n` samples. -/
def ceilAt (d : ℕ → ℚ) : ℕ → ℕ
  | 0 => 100000
  | n + 1 => maxCountOr (elapsedAfter d n) (ceilAt d n)

/-- The `n`-th state the loop passes through (before guard check `n`). -/
def iterSt (d : ℕ → ℚ) : ℕ → LoopSt
  | 0 => initSt
  | n + 1 => funcStep d (iterSt d n)

theorem iterSt_times (d : ℕ → ℚ) (n : ℕ) :
    (iterSt d n).times = (List.range n).map d := by
  induction n with
  | zero => rfl
  | succ n ih =>
    simp only [iterSt, funcStep, ih, List.length_map, List.length_range,
      List.range_succ, List.map_append, List.map_cons, List.map_nil]

theorem iterSt_timePassed (d : ℕ → ℚ) (n : ℕ) :
    (iterSt d n).timePassed = elapsedAfter d n := by
  induction n with
  | zero => rfl
  | succ n ih =>
    simp only [iterSt, funcStep, ih, iterSt_times, List.length_map,
      List.length_range, elapsedAfter, List.range_succ, List.map_append,
      List.sum_append, List.map_cons, List.map_nil, List.sum_cons,
      List.sum_nil, add_zero]

theorem iterSt_maxCount (d : ℕ → ℚ) (n : ℕ) :
    (iterSt d n).maxCount = ceilAt d n := by
  induction n with
  | zero => rfl
  | succ n ih =>
    simp only [iterSt, funcStep, ceilAt, ih, iterSt_timePassed]

theorem ceilAt_le (d : ℕ → ℚ) (n : ℕ) : ceilAt d n ≤ 100000 := by
  induction n with
  | zero => exact le_refl _
  | succ n ih =>
    simp only [ceilAt, maxCountOr, getMaxCount]
    split_ifs <;> (simp only [Option.getD_some, Option.getD_none]; omega)

/-- Running the loop from the `k`-th trace state with enough fuel lands on
the trace state at the stopping index `N`. -/
theorem runFuncLoop_from_iter (d : ℕ → ℚ) (fuel k N : ℕ)
    (hkN : k ≤ N) (hfuel : N - k ≤ fuel)
    (hcont : ∀ i, k ≤ i → i < N → i < ceilAt d i)
    (hstop : ¬ N < ceilAt d N) :
    runFuncLoop d fuel (iterSt d k) = iterSt d N := by
  induction fuel generalizing k with
  | zero =>
    have hk : k = N := by omega
    subst hk
    rfl
  | succ fuel ih =>
    rcases eq_or_lt_of_le hkN with hk | hk
    · subst hk
      have hlen : (iterSt d k).times.length = k := by
        rw [iterSt_times, List.length_map, List.length_range]
      simp only [runFuncLoop, hlen, iterSt_maxCount]
      rw [if_neg hstop]
    · have hguard : (iterSt d k).times.length < (iterSt d k).maxCount := by
        rw [iterSt_times, List.length_map, List.length_range, iterSt_maxCount]
        exact hcont k (le_refl _) hk
      simp only [runFuncLoop]
      rw [if_pos hguard]
      have hstep : funcStep d (iterSt d k) = iterSt d (k + 1) := rfl
      rw [hstep]
      exact ih (k + 1) hk (by omega) (fun i hi hiN => hcont i (by omega) hiN)

/-- The stopping index cannot exceed 100000. -/
theorem stop_le (d : ℕ → ℚ) (N : ℕ) (hcont : ∀ i, i < N → i < ceilAt d i) :
    N ≤ 100000 := by
  by_contra h
  have := hcont 100000 (by omega)
  have := ceilAt_le d 100000
  omega

/-- Characterisation of `_evaluate_func_speed`: if `N` is a stopping index
of the guard sequence, the function returns the sorted list of the first
`N` measured durations. -/
theorem evaluateFuncSpeed_eq (d : ℕ → ℚ) (N : ℕ)
    (hcont : ∀ i, i < N → i < ceilAt d i)
    (hstop : ¬ N < ceilAt d N) :
    evaluateFuncSpeed d = List.insertionSort (· ≤ ·) ((List.range N).map d) := by
  have hN : N ≤ 100000 := stop_le d N hcont
  have h := runFuncLoop_from_iter d 100001 0 N (by omega) (by omega)
    (fun i _ hiN => hcont i hiN) hstop
  have h0 : iterSt d 0 = initSt := rfl
  rw [evaluateFuncSpeed, ← h0, h, iterSt_times]

/-- The loop always stops: a stopping index exists (and is at most
100000), whatever the duration stream does. -/
theorem stop_exists (d : ℕ → ℚ) :
    ∃ N, N ≤ 100000 ∧ (∀ i, i < N → i < ceilAt d i) ∧ ¬ N < ceilAt d N := by
  have hbase : ¬ 100000 < ceilAt d 100000 := by
    have := ceilAt_le d 100000
    omega
  classical
  let P : ℕ → Prop := fun n => ¬ n < ceilAt d n
  have hP : ∃ n, P n := ⟨100000, hbase⟩
  obtain ⟨N, hN, hmin⟩ := Nat.findX hP
  refine ⟨N, ?_, ?_, hN⟩
  · by_contra h
    have h1 := hmin 100000 (by omega)
    exact h1 hbase
  · intro i hi
    have := hmin i hi
    simp only [P, not_not] at this
    exact this

/-! ### The consult-after-recording loop described by the spec -/

/-- Modelled from the spec: the sampling-loop iteration order claimed in
§4.3 — "invoke callable; append duration to samples; add duration to
cumulative elapsed; recompute current_ceiling = BudgetPolicy(cumulative
elapsed); continue" — i.e. the ceiling is recomputed *after* the sample is
recorded, from the updated elapsed time.  This definition exists only to
be compared with `funcStep`, which is the iteration the code performs. -/
def consultAfterStep (d : ℕ → ℚ) (s : LoopSt) : LoopSt :=
  let t := d s.times.length
  ⟨s.times ++ [t], s.timePassed + t, maxCountOr (s.timePassed + t) s.maxCount⟩

/-- Modelled from the spec: the `while len(samples) < current_ceiling` loop
built from `consultAfterStep`. -/
def runConsultAfterLoop (d : ℕ → ℚ) : ℕ → LoopSt → LoopSt
  | 0, s => s
  | fuel + 1, s =>
    if s.times.length < s.maxCount then
      runConsultAfterLoop d fuel (consultAfterStep d s)
    else s

/-- Modelled from the spec: the sampler induced by the consult-after loop,
returning the sorted sample list. -/
def consultAfterSampler (d : ℕ → ℚ) : List ℚ :=
  List.insertionSort (· ≤ ·) (runConsultAfterLoop d 100001 initSt).times

/-! ### Helper lemmas for concrete runs -/

theorem elapsedAfter_succ (d : ℕ → ℚ) (n : ℕ) :
    elapsedAfter d (n + 1) = elapsedAfter d n + d n := by
  simp [elapsedAfter, List.range_succ]

theorem elapsedAfter_of_zero (d : ℕ → ℚ) (h : ∀ i, d i = 0) (n : ℕ) :
    elapsedAfter d n = 0 := by
  induction n with
  | zero => rfl
  | succ n ih => rw [elapsedAfter_succ, ih, h, add_zero]

theorem ceilAt_of_zero (d : ℕ → ℚ) (h : ∀ i, d i = 0) (n : ℕ) :
    ceilAt d n = 100000 := by
  induction n with
  | zero => rfl
  | succ n ih =>
    rw [ceilAt, elapsedAfter_of_zero d h, ih]
    norm_num [maxCountOr, getMaxCount]

theorem insertionSort_replicate_zero (n : ℕ) :
    List.insertionSort (· ≤ ·) (List.replicate n (0 : ℚ)) = List.replicate n 0 := by
  induction n with
  | zero => rfl
  | succ n ih =>
    rw [List.replicate_succ, List.insertionSort, ih]
    cases n with
    | zero => rfl
    | succ m => simp [List.replicate_succ, List.orderedInsert]

theorem getLast?_replicate_succ (n : ℕ) (a : ℚ) :
    (List.replicate (n + 1) a).getLast? = some a := by
  induction n with
  | zero => rfl
  | succ n ih =>
    rw [List.replicate_succ]
    rw [List.replicate_succ] at ih ⊢
    rw [List.getLast?_cons_cons]
    exact ih

/-! ### Claim theorems for the policy and the loops -/

/-- C3: `_get_max_count`, with the `or max_count` fallback, is a pure
monotonically non-increasing step function of elapsed time matching the
fixed threshold table, and leaves the ceiling unchanged at or below the
1.0-second threshold. -/
theorem budgetPolicy_step_monotone :
    (∀ t u : ℚ, t ≤ u → budgetCeiling u ≤ budgetCeiling t) ∧
    (∀ t : ℚ, 12 < t → budgetCeiling t = 1) ∧
    (∀ t : ℚ, 10 < t → t ≤ 12 → budgetCeiling t = 10) ∧
    (∀ t : ℚ, 15/2 < t → t ≤ 10 → budgetCeiling t = 100) ∧
    (∀ t : ℚ, 5 < t → t ≤ 15/2 → budgetCeiling t = 500) ∧
    (∀ t : ℚ, 3 < t → t ≤ 5 → budgetCeiling t = 1000) ∧
    (∀ t : ℚ, 1 < t → t ≤ 3 → budgetCeiling t = 10000) ∧
    (∀ (t : ℚ) (p : ℕ), t ≤ 1 → maxCountOr t p = p) ∧
    budgetCeiling (1/2) = 100000 ∧ budgetCeiling (3/2) = 10000 ∧
    budgetCeiling 4 = 1000 ∧ budgetCeiling 6 = 500 ∧
    budgetCeiling 8 = 100 ∧ budgetCeiling 11 = 10 ∧ budgetCeiling 13 = 1 := by
  refine ⟨?_, ?_, ?_, ?_, ?_, ?_, ?_, ?_, ?_, ?_, ?_, ?_, ?_, ?_, ?_⟩
  · intro t u htu
    simp only [budgetCeiling, maxCountOr, getMaxCount]
    split_ifs <;> simp only [Option.getD_some, Option.getD_none] <;>
      first | omega | linarith
  · intro t h1
    have hg : getMaxCount t = some 1 := by
      unfold getMaxCount
      rw [if_pos (by linarith)]
    simp [budgetCeiling, maxCountOr, hg]
  · intro t h1 h2
    have hg : getMaxCount t = some 10 := by
      unfold getMaxCount
      rw [if_neg (by linarith), if_pos (by linarith)]
    simp [budgetCeiling, maxCountOr, hg]
  · intro t h1 h2
    have hg : getMaxCount t = some 100 := by
      unfold getMaxCount
      rw [if_neg (by linarith), if_neg (by linarith), if_pos (by linarith)]
    simp [budgetCeiling, maxCountOr, hg]
  · intro t h1 h2
    have hg : getMaxCount t = some 500 := by
      unfold getMaxCount
      rw [if_neg (by linarith), if_neg (by linarith), if_neg (by linarith),
        if_pos (by linarith)]
    simp [budgetCeiling, maxCountOr, hg]
  · intro t h1 h2
    have hg : getMaxCount t = some 1000 := by
      unfold getMaxCount
      rw [if_neg (by linarith), if_neg (by linarith), if_neg (by linarith),
        if_neg (by linarith), if_pos (by linarith)]
    simp [budgetCeiling, maxCountOr, hg]
  · intro t h1 h2
    have hg : getMaxCount t = some 10000 := by
      unfold getMaxCount
      rw [if_neg (by linarith), if_neg (by linarith), if_neg (by linarith),
        if_neg (by linarith), if_neg (by linarith), if_pos (by linarith)]
    simp [budgetCeiling, maxCountOr, hg]
  · intro t p h1
    have hg : getMaxCount t = none := by
      unfold getMaxCount
      rw [if_neg (by linarith), if_neg (by linarith), if_neg (by linarith),
        if_neg (by linarith), if_neg (by linarith), if_neg (by linarith)]
    simp [maxCountOr, hg]
  all_goals norm_num [budgetCeiling, maxCountOr, getMaxCount]

/-- Witness for C3: the monotonicity clause applied at 1/2 ≤ 13. -/
theorem budgetPolicy_step_monotone_witness :
    budgetCeiling 13 ≤ budgetCeiling (1/2) :=
  budgetPolicy_step_monotone.1 (1/2) 13 (by norm_num)

/-- C4 counterexample: the code's loop and the spec's consult-after loop
disagree on the duration stream that measures 13 seconds per invocation:
the code records 2 samples, the consult-after loop records 1.  (The code
recomputes the ceiling at the *top* of each iteration from the elapsed
time of the previously recorded samples, so the guard admitting sample
n+1 still uses the ceiling derived from elapsed after sample n−1.) -/
theorem loop_consults_before_invocation :
    evaluateFuncSpeed (fun _ => 13) = [13, 13] ∧
    consultAfterSampler (fun _ => 13) = [13] ∧
    (evaluateFuncSpeed (fun _ => 13)).length = 2 ∧
    (consultAfterSampler (fun _ => 13)).length = 1 := by
  have hfunc : evaluateFuncSpeed (fun _ => 13) = [13, 13] := by
    have h := evaluateFuncSpeed_eq (fun _ => 13) 2
      (by
        intro i hi
        interval_cases i <;>
          norm_num [ceilAt, elapsedAfter, maxCountOr, getMaxCount, List.range_succ])
      (by norm_num [ceilAt, elapsedAfter, maxCountOr, getMaxCount, List.range_succ])
    rw [h]
    norm_num [List.range_succ, List.insertionSort, List.orderedInsert]
  have hspec : consultAfterSampler (fun _ => 13) = [13] := by
    have h1 : runConsultAfterLoop (fun _ => 13) 100001 initSt
        = runConsultAfterLoop (fun _ => 13) 100000
            (consultAfterStep (fun _ => 13) initSt) := by
      rw [runConsultAfterLoop]
      norm_num [initSt]
    have h2 : consultAfterStep (fun _ => 13) initSt = ⟨[13], 13, 1⟩ := by
      simp [consultAfterStep, initSt, maxCountOr, getMaxCount]
      norm_num
    have h3 : runConsultAfterLoop (fun _ => 13) 100000 ⟨[13], 13, 1⟩
        = ⟨[13], 13, 1⟩ := by
      rw [runConsultAfterLoop]
      norm_num
    rw [consultAfterSampler, h1, h2, h3]
    simp [List.insertionSort]
  exact ⟨hfunc, hspec, by rw [hfunc]; rfl, by rw [hspec]; rfl⟩

/-- C4 amended: BudgetPolicy is consulted once per iteration, at the top
of the loop body *before* the invocation, on the cumulative elapsed time
of the samples already recorded; hence the ceiling guarding the check
after `n + 1` samples is `ceilAt d (n+1) = maxCountOr (elapsed after n
samples)`, and the run returns the sorted first `N` durations for the
first `N` failing the guard against that lagged ceiling schedule. -/
theorem loop_ceiling_schedule :
    (∀ (d : ℕ → ℚ) (n : ℕ),
      ceilAt d (n + 1) = maxCountOr (elapsedAfter d n) (ceilAt d n)) ∧
    (∀ (d : ℕ → ℚ) (N : ℕ),
      (∀ i, i < N → i < ceilAt d i) → ¬ N < ceilAt d N →
      evaluateFuncSpeed d = List.insertionSort (· ≤ ·) ((List.range N).map d)) :=
  ⟨fun _ _ => rfl, fun d N hcont hstop => evaluateFuncSpeed_eq d N hcont hstop⟩

/-- Witness for the amended C4: the schedule applied to the 2-second
stream stops at N = 8. -/
theorem loop_ceiling_schedule_witness :
    evaluateFuncSpeed (fun _ => (2 : ℚ))
      = List.insertionSort (· ≤ ·) ((List.range 8).map (fun _ => (2 : ℚ))) :=
  loop_ceiling_schedule.2 (fun _ => 2) 8
    (by
      intro i hi
      interval_cases i <;>
        norm_num [ceilAt, elapsedAfter, maxCountOr, getMaxCount, List.range_succ])
    (by norm_num [ceilAt, elapsedAfter, maxCountOr, getMaxCount, List.range_succ])

/-- C5: on a stream of zero-duration invocations the sampler terminates
with exactly 100000 samples, sorted ascending, first ≤ last. -/
theorem sampler_zero_duration (d : ℕ → ℚ) (h : ∀ i, d i = 0) :
    evaluateFuncSpeed d = List.replicate 100000 0 ∧
    (evaluateFuncSpeed d).length = 100000 ∧
    List.Sorted (· ≤ ·) (evaluateFuncSpeed d) ∧
    ∃ a b, (evaluateFuncSpeed d).head? = some a ∧
      (evaluateFuncSpeed d).getLast? = some b ∧ a ≤ b := by
  have hceil := ceilAt_of_zero d h
  have h1 := evaluateFuncSpeed_eq d 100000
    (by intro i hi; rw [hceil]; omega)
    (by rw [hceil]; omega)
  have heq : evaluateFuncSpeed d = List.replicate 100000 0 := by
    have h2 : (List.range 100000).map d = List.replicate 100000 (0 : ℚ) := by
      rw [List.map_congr_left (fun a _ => h a), List.map_const',
        List.length_range]
    rw [h1, h2, insertionSort_replicate_zero]
  refine ⟨heq, ?_, ?_, ?_⟩
  · rw [heq, List.length_replicate]
  · rw [h1]
    exact List.sorted_insertionSort _ _
  · refine ⟨0, 0, ?_, ?_, le_refl 0⟩
    · rw [heq]
      rfl
    · rw [heq]
      exact getLast?_replicate_succ 99999 0

/-- Witness for C5 at the constant-zero stream. -/
theorem sampler_zero_duration_witness :
    (evaluateFuncSpeed (fun _ => (0 : ℚ))).length = 100000 :=
  (sampler_zero_duration (fun _ => 0) (fun _ => rfl)).2.1

/-- C6: for every stream of non-negative durations the loop terminates
within the a-priori bound, returning the sorted first-N samples; on the
2-second stream the elapsed time first exceeds 12.0 s after sample 7 and
the loop then performs exactly one further invocation, stopping with 8
samples — at least one and far fewer than 100000. -/
theorem sampler_terminates :
    (∀ d : ℕ → ℚ, (∀ i, 0 ≤ d i) →
      ∃ N, N ≤ 100000 ∧ (∀ i, i < N → i < ceilAt d i) ∧ ¬ N < ceilAt d N ∧
        evaluateFuncSpeed d = List.insertionSort (· ≤ ·) ((List.range N).map d)) ∧
    elapsedAfter (fun _ => (2 : ℚ)) 6 ≤ 12 ∧
    12 < elapsedAfter (fun _ => (2 : ℚ)) 7 ∧
    (evaluateFuncSpeed (fun _ => (2 : ℚ))).length = 8 ∧
    1 ≤ (evaluateFuncSpeed (fun _ => (2 : ℚ))).length ∧
    (evaluateFuncSpeed (fun _ => (2 : ℚ))).length < 100000 := by
  have hlen : (evaluateFuncSpeed (fun _ => (2 : ℚ))).length = 8 := by
    have h := evaluateFuncSpeed_eq (fun _ => (2 : ℚ)) 8
      (by
        intro i hi
        interval_cases i <;>
          norm_num [ceilAt, elapsedAfter, maxCountOr, getMaxCount, List.range_succ])
      (by norm_num [ceilAt, elapsedAfter, maxCountOr, getMaxCount, List.range_succ])
    rw [h, (List.perm_insertionSort _ _).length_eq, List.length_map,
      List.length_range]
  refine ⟨?_, ?_, ?_, hlen, by omega, by omega⟩
  · intro d _
    obtain ⟨N, hN, hcont, hstop⟩ := stop_exists d
    exact ⟨N, hN, hcont, hstop, evaluateFuncSpeed_eq d N hcont hstop⟩
  · norm_num [elapsedAfter, List.range_succ]
  · norm_num [elapsedAfter, List.range_succ]

/-- Witness for C6 at the 2-second stream. -/
theorem sampler_terminates_witness :
    ∃ N, N ≤ 100000 ∧
      (∀ i, i < N → i < ceilAt (fun _ => (2 : ℚ)) i) ∧
      ¬ N < ceilAt (fun _ => (2 : ℚ)) N ∧
      evaluateFuncSpeed (fun _ => (2 : ℚ))
        = List.insertionSort (· ≤ ·) ((List.range N).map (fun _ => (2 : ℚ))) :=
  sampler_terminates.1 (fun _ => 2) (fun _ => by norm_num)

/-- C9: the synchronous and suspending loops are the same state machine:
fed the same duration stream they produce the same sample list. -/
theorem coro_func_same_samples :
    ∀ d : ℕ → ℚ, evaluateCoroSpeed d = evaluateFuncSpeed d ∧
      (evaluateCoroSpeed d).length = (evaluateFuncSpeed d).length := by
  have hrun : ∀ (d : ℕ → ℚ) (fuel : ℕ) (s : LoopSt),
      runCoroLoop d fuel s = runFuncLoop d fuel s := by
    intro d fuel
    induction fuel with
    | zero => intro s; rfl
    | succ n ih =>
      intro s
      simp only [runCoroLoop, runFuncLoop]
      rw [show coroStep d s = funcStep d s from rfl, ih]
  intro d
  have : evaluateCoroSpeed d = evaluateFuncSpeed d := by
    rw [evaluateCoroSpeed, evaluateFuncSpeed, hrun]
  exact ⟨this, by rw [this]⟩

/-! ### The duration formatter `_get_time_spec` (timeit.py lines 184-199)

The module sets `decimal.setcontext(decimal.Context(prec=8))` (default
rounding ROUND_HALF_EVEN, default `capitals=1`).  The embedding follows
CPython's `_pydecimal`: `Decimal.from_float`, `Decimal.normalize`,
`Decimal.__str__` (with its `eng` flag for `to_eng_string`), and then the
string surgery the source performs. -/

/-- A digit character is one of '0'..'9'. -/
def isDigitChar (ch : Char) : Prop := 48 ≤ ch.toNat ∧ ch.toNat ≤ 57

instance (ch : Char) : Decidable (isDigitChar ch) :=
  inferInstanceAs (Decidable (48 ≤ ch.toNat ∧ ch.toNat ≤ 57))

/-- Decimal digit characters of `n`, most significant first: the worker
peels digits with divmod-by-10 into an accumulator. -/
def natDigitsAux : ℕ → ℕ → List Char → List Char
  | 0, _, acc => acc
  | fuel + 1, n, acc =>
    let acc' := Nat.digitChar (n % 10) :: acc
    if n < 10 then acc' else natDigitsAux fuel (n / 10) acc'

/-- `str(n)` for a natural number, as a character list. -/
def natChars (n : ℕ) : List Char := natDigitsAux (n + 1) n []

/-- `len(str(n))`. -/
def numLen (n : ℕ) : ℕ := (natChars n).length

/-- A Python `Decimal` value `c × 10 ^ e`; the decimal digit string of `c`
is the `_int` field.  The sign is omitted: every value formatted here is
non-negative. -/
structure Dec where
  c : ℕ
  e : ℤ
deriving Repr, DecidableEq

/-- `decimal.Decimal(delay)` for a finite non-negative binary64 value
`delay = n / 2 ^ k` in lowest terms (as produced by
`float.as_integer_ratio`): `Decimal.from_float` yields the exact value
with coefficient `n · 5 ^ k` and exponent `-k`. -/
def fromFloat (n k : ℕ) : Dec := ⟨n * 5 ^ k, -(k : ℤ)⟩

/-- ROUND_HALF_EVEN of `c / p`, where `p` is the power of ten whose worth
of trailing digits is dropped. -/
def roundHalfEven (c p : ℕ) : ℕ :=
  let q := c / p
  let r := c % p
  if p < 2 * r then q + 1
  else if 2 * r < p then q
  else if q % 2 = 0 then q else q + 1

/-- The trailing-zero-stripping loop of `Decimal.normalize`: divide out
factors of ten, incrementing the exponent; `fuel` bounds the divisions. -/
def stripZeros : ℕ → ℕ → ℤ → ℕ × ℤ
  | 0, c, e => (c, e)
  | fuel + 1, c, e =>
    if c % 10 = 0 then stripZeros fuel (c / 10) (e + 1) else (c, e)

/-- `Decimal.normalize()` in the `prec = 8` context set by the module:
round to 8 significant digits (half-even) when longer, then strip
trailing zeros; zero normalises to coefficient 0, exponent 0. -/
def normalize8 (d : Dec) : Dec :=
  if d.c = 0 then ⟨0, 0⟩
  else
    let L := numLen d.c
    let c1 := if 8 < L then roundHalfEven d.c (10 ^ (L - 8)) else d.c
    let e1 := if 8 < L then d.e + ((L - 8 : ℕ) : ℤ) else d.e
    let p := stripZeros c1 c1 e1
    ⟨p.1, p.2⟩

/-- `'0' * n`. -/
def zeros (n : ℕ) : List Char := List.replicate n '0'

/-- `"%+d" % v`: the exponent digits with a mandatory sign. -/
def signedIntChars (v : ℤ) : List Char :=
  if v < 0 then '-' :: natChars v.natAbs else '+' :: natChars v.natAbs

/-- `leftdigits = self._exp + len(self._int)` of `Decimal.__str__`. -/
def leftdigitsOf (d : Dec) : ℤ := d.e + (numLen d.c : ℤ)

/-- `dotplace` of `Decimal.__str__`: the number of coefficient digits
printed left of the decimal point. -/
def dotplaceOf (eng : Bool) (d : Dec) : ℤ :=
  if d.e ≤ 0 ∧ -6 < leftdigitsOf d then leftdigitsOf d
  else if ¬ eng then 1
  else if d.c = 0 then (leftdigitsOf d + 1) % 3 - 1
  else (leftdigitsOf d - 1) % 3 + 1

/-- The part of `Decimal.__str__` left of the decimal point. -/
def intpartOf (eng : Bool) (d : Dec) : List Char :=
  if dotplaceOf eng d ≤ 0 then ['0']
  else if ((natChars d.c).length : ℤ) ≤ dotplaceOf eng d then
    natChars d.c ++ zeros (dotplaceOf eng d - (natChars d.c).length).toNat
  else (natChars d.c).take (dotplaceOf eng d).toNat

/-- The decimal point and fraction digits of `Decimal.__str__` (empty
when nothing follows the point). -/
def fracpartOf (eng : Bool) (d : Dec) : List Char :=
  if dotplaceOf eng d ≤ 0 then
    '.' :: (zeros (-(dotplaceOf eng d)).toNat ++ natChars d.c)
  else if ((natChars d.c).length : ℤ) ≤ dotplaceOf eng d then []
  else '.' :: (natChars d.c).drop (dotplaceOf eng d).toNat

/-- The exponent part of `Decimal.__str__`: empty when no exponent is
needed, otherwise `E` followed by the signed exponent. -/
def expPartOf (eng : Bool) (d : Dec) : List Char :=
  if leftdigitsOf d = dotplaceOf eng d then []
  else 'E' :: signedIntChars (leftdigitsOf d - dotplaceOf eng d)

/-- `Decimal.__str__` (non-negative values): `to_eng_string` when `eng`,
plain `str` otherwise. -/
def decString (eng : Bool) (d : Dec) : List Char :=
  intpartOf eng d ++ fracpartOf eng d ++ expPartOf eng d

def isPrefixB : List Char → List Char → Bool
  | [], _ => true
  | _ :: _, [] => false
  | a :: as, b :: bs => a == b && isPrefixB as bs

/-- Python's `sub in s` substring test. -/
def hasSubstr (p : List Char) : List Char → Bool
  | [] => isPrefixB p []
  | b :: bs => isPrefixB p (b :: bs) || hasSubstr p bs

/-- `units = "s", "ms", "us", "ns", "ps"`. -/
def units : List String := ["s", "ms", "us", "ns", "ps"]

/-- `int(ch)` for a single digit character. -/
def digitVal (ch : Char) : ℕ := ch.toNat - 48

/-- `_get_time_spec(delay)` for the float `delay = n / 2 ^ k ≥ 0` in
lowest terms, returning the `(dec, unit)` pair whose concatenation the
source returns.  `getD` stands in for Python's partial indexing: the
defaults are proved unreachable (`unit_index_in_range`). -/
def getTimeSpecParts (n k : ℕ) : List Char × String :=
  let dec := decString true (normalize8 (fromFloat n k))
  if hasSubstr ['E', '-'] dec then
    (dec.take (dec.length - 3), units.getD (digitVal (dec.getLastD ' ') / 3) "")
  else
    let dec2 := if hasSubstr ['E', '+'] dec then decString false (fromFloat n k) else dec
    (dec2, units.getD 0 "")

/-- `_get_time_spec` as a pair of strings. -/
def getTimeSpecS (n k : ℕ) : String × String :=
  ((getTimeSpecParts n k).1.asString, (getTimeSpecParts n k).2)

/-- The concatenated return value `dec + unit` of `_get_time_spec`. -/
def getTimeSpec (n k : ℕ) : String :=
  (getTimeSpecS n k).1 ++ (getTimeSpecS n k).2

/-- The unit-table index `_get_time_spec` computes: `int(dec[-1]) // 3`
on the `E-` branch, 0 otherwise. -/
def timeSpecIndex (n k : ℕ) : ℕ :=
  let dec := decString true (normalize8 (fromFloat n k))
  if hasSubstr ['E', '-'] dec then digitVal (dec.getLastD ' ') / 3 else 0

/-! ### Digit-string lemmas -/

theorem digitChar_isDigit (m : ℕ) (h : m < 10) : isDigitChar (Nat.digitChar m) := by
  interval_cases m <;> decide

theorem lt_ten_pow_succ (n : ℕ) : n < 10 ^ (n + 1) :=
  lt_of_lt_of_le (Nat.lt_pow_self (by norm_num) n)
    (Nat.pow_le_pow_right (by norm_num) (by omega))

theorem natDigitsAux_structure :
    ∀ (f n : ℕ) (acc : List Char), n < 10 ^ f →
      ∃ l, natDigitsAux f n acc = l ++ acc ∧ (f ≠ 0 → l ≠ []) ∧
        ∀ ch ∈ l, isDigitChar ch := by
  intro f
  induction f with
  | zero =>
    intro n acc _
    exact ⟨[], rfl, fun h => absurd rfl h, by simp⟩
  | succ f ih =>
    intro n acc hn
    by_cases h10 : n < 10
    · refine ⟨[Nat.digitChar (n % 10)], by simp [natDigitsAux, h10], by simp, ?_⟩
      intro ch hch
      rw [List.mem_singleton] at hch
      subst hch
      exact digitChar_isDigit _ (Nat.mod_lt _ (by norm_num))
    · have hdiv : n / 10 < 10 ^ f := by
        rw [Nat.div_lt_iff_lt_mul (by norm_num)]
        calc n < 10 ^ (f + 1) := hn
        _ = 10 ^ f * 10 := by ring
      obtain ⟨l, hl, _, hdig⟩ := ih (n / 10) (Nat.digitChar (n % 10) :: acc) hdiv
      refine ⟨l ++ [Nat.digitChar (n % 10)], ?_, by simp, ?_⟩
      · simp only [natDigitsAux, if_neg h10, hl, List.append_assoc,
          List.singleton_append]
      · intro ch hch
        rcases List.mem_append.1 hch with h | h
        · exact hdig ch h
        · rw [List.mem_singleton] at h
          subst h
          exact digitChar_isDigit _ (Nat.mod_lt _ (by norm_num))

theorem natChars_structure (n : ℕ) :
    natChars n ≠ [] ∧ ∀ ch ∈ natChars n, isDigitChar ch := by
  obtain ⟨l, hl, hne, hdig⟩ :=
    natDigitsAux_structure (n + 1) n [] (lt_ten_pow_succ n)
  rw [natChars, hl, List.append_nil]
  exact ⟨hne (by omega), hdig⟩

theorem natDigitsAux_length_le :
    ∀ (f j n : ℕ) (acc : List Char), n < 10 ^ f → n < 10 ^ j → 1 ≤ j →
      (natDigitsAux f n acc).length ≤ j + acc.length := by
  intro f
  induction f with
  | zero =>
    intro j n acc _ _ _
    simp only [natDigitsAux]
    omega
  | succ f ih =>
    intro j n acc hf hj h1
    by_cases h10 : n < 10
    · simp only [natDigitsAux, if_pos h10, List.length_cons]
      omega
    · have hj2 : 2 ≤ j := by
        rcases Nat.lt_or_ge j 2 with h | h
        · exfalso
          have : j = 1 := by omega
          subst this
          norm_num at hj
          omega
        · exact h
      have hdivf : n / 10 < 10 ^ f := by
        rw [Nat.div_lt_iff_lt_mul (by norm_num)]
        calc n < 10 ^ (f + 1) := hf
        _ = 10 ^ f * 10 := by ring
      have hdivj : n / 10 < 10 ^ (j - 1) := by
        rw [Nat.div_lt_iff_lt_mul (by norm_num)]
        calc n < 10 ^ j := hj
        _ = 10 ^ (j - 1) * 10 := by
            rw [← pow_succ]
            congr 1
            omega
      have hrec := ih (j - 1) (n / 10) (Nat.digitChar (n % 10) :: acc)
        hdivf hdivj (by omega)
      simp only [natDigitsAux, if_neg h10]
      simp only [List.length_cons] at hrec
      omega

theorem numLen_le_of_lt (n j : ℕ) (hj : 1 ≤ j) (h : n < 10 ^ j) :
    numLen n ≤ j := by
  have := natDigitsAux_length_le (n + 1) j n [] (lt_ten_pow_succ n) h hj
  simpa [numLen, natChars] using this

theorem natDigitsAux_acc_le_length :
    ∀ (f n : ℕ) (acc : List Char), acc.length ≤ (natDigitsAux f n acc).length := by
  intro f
  induction f with
  | zero =>
    intro n acc
    simp [natDigitsAux]
  | succ f ih =>
    intro n acc
    by_cases h10 : n < 10
    · simp [natDigitsAux, if_pos h10]
    · simp only [natDigitsAux, if_neg h10]
      calc acc.length ≤ (Nat.digitChar (n % 10) :: acc).length := by simp
      _ ≤ _ := ih (n / 10) _

theorem natDigitsAux_lt_pow :
    ∀ (f n : ℕ) (acc : List Char), n < 10 ^ f →
      n < 10 ^ ((natDigitsAux f n acc).length - acc.length) := by
  intro f
  induction f with
  | zero =>
    intro n acc hn
    simpa [natDigitsAux] using hn
  | succ f ih =>
    intro n acc hn
    by_cases h10 : n < 10
    · have hlen : (natDigitsAux (f + 1) n acc).length = acc.length + 1 := by
        simp [natDigitsAux, if_pos h10]
      rw [hlen]
      simpa using h10
    · have hdivf : n / 10 < 10 ^ f := by
        rw [Nat.div_lt_iff_lt_mul (by norm_num)]
        calc n < 10 ^ (f + 1) := hn
        _ = 10 ^ f * 10 := by ring
      have hIH := ih (n / 10) (Nat.digitChar (n % 10) :: acc) hdivf
      have hlen := natDigitsAux_acc_le_length f (n / 10) (Nat.digitChar (n % 10) :: acc)
      have hstep : natDigitsAux (f + 1) n acc
          = natDigitsAux f (n / 10) (Nat.digitChar (n % 10) :: acc) := by
        simp [natDigitsAux, if_neg h10]
      rw [hstep]
      simp only [List.length_cons] at hIH hlen
      have hmod := Nat.div_add_mod n 10
      have hlt : n < 10 * (n / 10 + 1) := by omega
      calc n < 10 * (n / 10 + 1) := hlt
      _ ≤ 10 * 10 ^ ((natDigitsAux f (n / 10) (Nat.digitChar (n % 10) :: acc)).length
            - (acc.length + 1)) := by
          have : n / 10 + 1 ≤ 10 ^ ((natDigitsAux f (n / 10)
              (Nat.digitChar (n % 10) :: acc)).length - (acc.length + 1)) := hIH
          omega
      _ = 10 ^ ((natDigitsAux f (n / 10) (Nat.digitChar (n % 10) :: acc)).length
            - acc.length) := by
          rw [← pow_succ']
          congr 1
          omega

theorem lt_pow_numLen (n : ℕ) : n < 10 ^ numLen n := by
  have := natDigitsAux_lt_pow (n + 1) n [] (lt_ten_pow_succ n)
  simpa [numLen, natChars] using this

/-! ### Stripping and rounding lemmas -/

theorem stripZeros_fst_le : ∀ (f c : ℕ) (e : ℤ), (stripZeros f c e).1 ≤ c := by
  intro f
  induction f with
  | zero => intro c e; exact le_refl c
  | succ f ih =>
    intro c e
    by_cases h : c % 10 = 0
    · simp only [stripZeros, if_pos h]
      exact le_trans (ih (c / 10) (e + 1)) (Nat.div_le_self c 10)
    · simp only [stripZeros, if_neg h]
      exact le_refl c

theorem stripZeros_no_trailing :
    ∀ (f c : ℕ) (e : ℤ), c ≤ f → 0 < c → (stripZeros f c e).1 % 10 ≠ 0 := by
  intro f
  induction f with
  | zero => intro c e h1 h2; omega
  | succ f ih =>
    intro c e h1 h2
    by_cases h : c % 10 = 0
    · simp only [stripZeros, if_pos h]
      exact ih (c / 10) (e + 1) (by omega) (by omega)
    · simp only [stripZeros, if_neg h]
      exact h

theorem roundHalfEven_le (c p : ℕ) : roundHalfEven c p ≤ c / p + 1 := by
  unfold roundHalfEven
  dsimp only
  split_ifs <;> omega

/-! ### Last-character lemmas -/

theorem lastD_append (l₁ l₂ : List Char) (x : Char) (h : l₂ ≠ []) :
    (l₁ ++ l₂).getLastD x = l₂.getLastD x := by
  rw [List.getLastD_eq_getLast?, List.getLastD_eq_getLast?,
    List.getLast?_append_of_ne_nil _ h]

theorem lastD_mem (l : List Char) (x : Char) (h : l ≠ []) :
    l.getLastD x ∈ l := by
  rw [List.getLastD_eq_getLast?]
  cases hl : l.getLast? with
  | none =>
    exfalso
    exact h (List.getLast?_eq_none_iff.1 hl)
  | some a =>
    exact List.mem_of_mem_getLast? hl

/-- Every rendering of `Decimal.__str__` ends in a decimal digit:
the exponent (when present) ends in its digits, a fraction part ends in
the coefficient digits, and a bare integer part ends in the coefficient
digits or in a padding '0'. -/
theorem decString_last_isDigit (eng : Bool) (d : Dec) :
    isDigitChar ((decString eng d).getLastD ' ') := by
  obtain ⟨hne, hdig⟩ := natChars_structure d.c
  rw [decString]
  by_cases hexp : leftdigitsOf d = dotplaceOf eng d
  · rw [expPartOf, if_pos hexp, List.append_nil]
    by_cases h1 : dotplaceOf eng d ≤ 0
    · rw [fracpartOf, if_pos h1]
      have hr : intpartOf eng d ++
          ('.' :: (zeros (-(dotplaceOf eng d)).toNat ++ natChars d.c))
          = (intpartOf eng d ++ ('.' :: zeros (-(dotplaceOf eng d)).toNat))
            ++ natChars d.c := by
        simp
      rw [hr, lastD_append _ _ _ hne]
      exact hdig _ (lastD_mem _ _ hne)
    · by_cases h2 : ((natChars d.c).length : ℤ) ≤ dotplaceOf eng d
      · rw [fracpartOf, if_neg h1, if_pos h2, List.append_nil,
          intpartOf, if_neg h1, if_pos h2]
        by_cases hm : (dotplaceOf eng d - ((natChars d.c).length : ℤ)).toNat = 0
        · rw [hm, show zeros 0 = [] from rfl, List.append_nil]
          exact hdig _ (lastD_mem _ _ hne)
        · have hz : zeros ((dotplaceOf eng d - ((natChars d.c).length : ℤ)).toNat) ≠ [] := by
            rw [zeros, Ne, List.replicate_eq_nil_iff]
            exact hm
          rw [lastD_append _ _ _ hz]
          have hmem := lastD_mem _ ' ' hz
          have h0 : (zeros ((dotplaceOf eng d - ((natChars d.c).length : ℤ)).toNat)).getLastD ' ' = '0' :=
            List.eq_of_mem_replicate hmem
          rw [h0]
          decide
      · rw [fracpartOf, if_neg h1, if_neg h2]
        have hdrop : (natChars d.c).drop (dotplaceOf eng d).toNat ≠ [] := by
          rw [Ne, List.drop_eq_nil_iff]
          push_neg
          omega
        have hr : intpartOf eng d ++
            ('.' :: (natChars d.c).drop (dotplaceOf eng d).toNat)
            = (intpartOf eng d ++ ['.'])
              ++ (natChars d.c).drop (dotplaceOf eng d).toNat := by
          simp
        rw [hr, lastD_append _ _ _ hdrop]
        exact hdig _ (List.drop_subset _ _ (lastD_mem _ _ hdrop))
  · rw [expPartOf, if_neg hexp]
    obtain ⟨hne2, hdig2⟩ := natChars_structure (leftdigitsOf d - dotplaceOf eng d).natAbs
    obtain ⟨sg, hsg⟩ : ∃ sg, signedIntChars (leftdigitsOf d - dotplaceOf eng d)
        = sg :: natChars (leftdigitsOf d - dotplaceOf eng d).natAbs := by
      rw [signedIntChars]
      split_ifs
      · exact ⟨'-', rfl⟩
      · exact ⟨'+', rfl⟩
    rw [hsg]
    have hr : intpartOf eng d ++ fracpartOf eng d ++
        ('E' :: sg :: natChars (leftdigitsOf d - dotplaceOf eng d).natAbs)
        = (intpartOf eng d ++ fracpartOf eng d ++ ['E', sg])
          ++ natChars (leftdigitsOf d - dotplaceOf eng d).natAbs := by
      simp
    rw [hr, lastD_append _ _ _ hne2]
    exact hdig2 _ (lastD_mem _ _ hne2)

theorem mem_of_hasSubstr (a : Char) (ps : List Char) :
    ∀ t, hasSubstr (a :: ps) t = true → a ∈ t := by
  intro t
  induction t with
  | nil =>
    intro h
    simp [hasSubstr, isPrefixB] at h
  | cons b bs ih =>
    intro h
    rw [hasSubstr, Bool.or_eq_true] at h
    rcases h with h | h
    · rw [isPrefixB, Bool.and_eq_true] at h
      have : a = b := by
        have := h.1
        simpa using this
      rw [this]
      exact List.mem_cons_self b bs
    · exact List.mem_cons_of_mem b (ih h)

/-- After `normalize8` the coefficient has at most 8 decimal digits:
rounding keeps the coefficient at or below `10 ^ 8`, and the exact value
`10 ^ 8` is impossible after stripping (it would still end in a zero). -/
theorem numLen_normalize8_le (d : Dec) : numLen (normalize8 d).c ≤ 8 := by
  by_cases hc : d.c = 0
  · rw [normalize8, if_pos hc]
    decide
  · rw [normalize8, if_neg hc]
    dsimp only
    by_cases h8 : 8 < numLen d.c
    · simp only [if_pos h8]
      have h1 := roundHalfEven_le d.c (10 ^ (numLen d.c - 8))
      have h2 := lt_pow_numLen d.c
      have h3 : d.c / 10 ^ (numLen d.c - 8) < 10 ^ 8 := by
        rw [Nat.div_lt_iff_lt_mul (pow_pos (by norm_num) _)]
        calc d.c < 10 ^ numLen d.c := h2
        _ = 10 ^ 8 * 10 ^ (numLen d.c - 8) := by
            rw [← pow_add]
            congr 1
            omega
      have hCle : roundHalfEven d.c (10 ^ (numLen d.c - 8)) ≤ 10 ^ 8 := by omega
      have hle := stripZeros_fst_le (roundHalfEven d.c (10 ^ (numLen d.c - 8)))
        (roundHalfEven d.c (10 ^ (numLen d.c - 8)))
        (d.e + ((numLen d.c - 8 : ℕ) : ℤ))
      by_cases hr : (stripZeros (roundHalfEven d.c (10 ^ (numLen d.c - 8)))
          (roundHalfEven d.c (10 ^ (numLen d.c - 8)))
          (d.e + ((numLen d.c - 8 : ℕ) : ℤ))).1 = 10 ^ 8
      · exfalso
        have hCeq : roundHalfEven d.c (10 ^ (numLen d.c - 8)) = 10 ^ 8 := by omega
        have hnt := stripZeros_no_trailing
          (roundHalfEven d.c (10 ^ (numLen d.c - 8)))
          (roundHalfEven d.c (10 ^ (numLen d.c - 8)))
          (d.e + ((numLen d.c - 8 : ℕ) : ℤ)) (le_refl _) (by rw [hCeq]; positivity)
        rw [hr] at hnt
        norm_num at hnt
      · exact numLen_le_of_lt _ 8 (by norm_num) (by omega)
    · simp only [if_neg h8]
      have h2 : d.c < 10 ^ 8 :=
        lt_of_lt_of_le (lt_pow_numLen d.c)
          (Nat.pow_le_pow_right (by norm_num) (by omega))
      exact numLen_le_of_lt _ 8 (by norm_num)
        (lt_of_le_of_lt (stripZeros_fst_le d.c d.c d.e) h2)

/-! ### Claim theorems for the formatter -/

/-- C10: for every finite non-negative float input `n / 2 ^ k`, the unit
index `_get_time_spec` computes is a single decimal digit divided by 3
(the last character of the rendered decimal is always a digit), hence at
most 3; the five-entry unit table is never indexed out of bounds and the
unit `"ps"` (index 4) is never produced. -/
theorem unit_index_in_range (n k : ℕ) :
    timeSpecIndex n k ≤ 3 ∧
    timeSpecIndex n k < units.length ∧
    units.getD (timeSpecIndex n k) "" ∈ (["s", "ms", "us", "ns"] : List String) ∧
    (getTimeSpecParts n k).2 = units.getD (timeSpecIndex n k) "" ∧
    isDigitChar ((decString true (normalize8 (fromFloat n k))).getLastD ' ') := by
  have hd := decString_last_isDigit true (normalize8 (fromFloat n k))
  have h3 : timeSpecIndex n k ≤ 3 := by
    rw [timeSpecIndex]
    by_cases hE : hasSubstr ['E', '-']
        (decString true (normalize8 (fromFloat n k))) = true
    · rw [if_pos hE]
      rcases hd with ⟨h1, h2⟩
      rw [digitVal]
      omega
    · rw [if_neg hE]
      omega
  refine ⟨h3, ?_, ?_, ?_, hd⟩
  · have hu : units.length = 5 := rfl
    omega
  · have h03 : timeSpecIndex n k = 0 ∨ timeSpecIndex n k = 1 ∨
        timeSpecIndex n k = 2 ∨ timeSpecIndex n k = 3 := by omega
    rcases h03 with h | h | h | h <;> rw [h] <;> decide
  · simp only [getTimeSpecParts, timeSpecIndex]
    by_cases hE : hasSubstr ['E', '-']
        (decString true (normalize8 (fromFloat n k))) = true
    · rw [if_pos hE, if_pos hE]
    · rw [if_neg hE, if_neg hE]

/-- C1 counterexample: the binary64 value nearest 0.001 (which is
`1152921504606847 / 2 ^ 60`, within half an ulp of 1/1000) is formatted
as `("0.001", "s")` — unit `"s"`, not the claimed `"ms"`. -/
theorem format_001_yields_seconds :
    getTimeSpecS 1152921504606847 60 = ("0.001", "s") ∧
    decide ((getTimeSpecS 1152921504606847 60).2 = "ms") = false ∧
    |(1152921504606847 : ℚ) / 2 ^ 60 - 1 / 10 ^ 3| ≤ 1 / 2 ^ 63 := by
  refine ⟨by decide, by decide, ?_⟩
  rw [abs_le]
  constructor <;> norm_num

/-- C1 amended: the table is honoured only for exponents 0 (fixed-point
rendering, unit "s") and −9 (unit "ns"); values whose engineering
exponents are −3 and −6 are rendered in fixed point with unit "s", and an
engineering exponent of −12 yields unit "s" with a truncated mantissa
("1E"), never "ps".  Each input below is the binary64 value nearest the
decimal in its name, certified to within half an ulp. -/
theorem format_unit_actual_behaviour :
    getTimeSpecS 1 0 = ("1", "s") ∧
    getTimeSpecS 1152921504606847 60 = ("0.001", "s") ∧
    getTimeSpecS 4722366482869645 72 = ("0.000001", "s") ∧
    getTimeSpecS 4835703278458517 82 = ("1", "ns") ∧
    getTimeSpecS 4951760157141521 92 = ("1E", "s") ∧
    |(4722366482869645 : ℚ) / 2 ^ 72 - 1 / 10 ^ 6| ≤ 1 / 2 ^ 73 ∧
    |(4835703278458517 : ℚ) / 2 ^ 82 - 1 / 10 ^ 9| ≤ 1 / 2 ^ 83 ∧
    |(4951760157141521 : ℚ) / 2 ^ 92 - 1 / 10 ^ 12| ≤ 1 / 2 ^ 93 := by
  refine ⟨by decide, by decide, by decide, by decide, by decide, ?_, ?_, ?_⟩ <;>
    (rw [abs_le]; constructor <;> norm_num)

/-- C2 counterexample: `format(1.0)` returns `("1", "s")`, not the
claimed `("1.0000000", "s")` — `normalize` strips the trailing zeros. -/
theorem format_one_strips_zeros :
    decide (getTimeSpecS 1 0 = ("1.0000000", "s")) = false ∧
    getTimeSpecS 1 0 = ("1", "s") := by
  constructor <;> decide

/-- C2 amended: the formatter renders at most 8 significant digits — the
normalized coefficient always has 8 or fewer decimal digits (rounded
half-even to the `prec = 8` context, trailing zeros stripped) — and
`format(1.0) = ("1", "s")`. -/
theorem format_eight_digit_context :
    (∀ n k : ℕ, numLen (normalize8 (fromFloat n k)).c ≤ 8) ∧
    (∀ d : Dec, numLen (normalize8 d).c ≤ 8) ∧
    getTimeSpecS 1 0 = ("1", "s") :=
  ⟨fun n k => numLen_normalize8_le (fromFloat n k),
   numLen_normalize8_le, by decide⟩

/-! ### The `timeit` command dispatch (timeit.py lines 106-128) -/

/-- The outcome of `await asyncio.wait_for(speed(func), timeout=15.0)` as
the command body observes it: the sample tuple, `asyncio.TimeoutError`,
or any other exception (carried as its rendered `repr`). -/
inductive AwaitResult where
  | ok (times : List ℚ)
  | timedOut
  | failed (err : String)

/-- The deadline passed to `asyncio.wait_for`. -/
def timeitDeadline : ℚ := 15

/-- Modelled from the spec: the external monospaced-block formatter
(`redbot.core.utils.chat_formatting.box`, not part of this repository),
which fences its text in a code block with a language tag. -/
def box (text lang : String) : String := "```" ++ lang ++ "\n" ++ text ++ "\n```"

/-- The `count < 4` statistics body:
`"Loops: {}\nAverage time: {}".format(count, avg)`. -/
def timeitShort (fmt : ℚ → String) (times : List ℚ) : String :=
  "Loops: " ++ toString times.length ++ "\nAverage time: "
    ++ fmt (times.sum / (times.length : ℚ))

/-- The `count ≥ 4` statistics body, extended with
`"Top 3 times: {}, {}, {}"` applied to `best_3`. -/
def timeitLong (fmt : ℚ → String) (times : List ℚ) (a b c : ℚ) : String :=
  "Loops: " ++ toString times.length ++ "\nAverage time: "
    ++ fmt (times.sum / (times.length : ℚ))
    ++ "\nTop 3 times: " ++ fmt a ++ ", " ++ fmt b ++ ", " ++ fmt c

/-- The statistics body of the command's success branch; the duration
formatter is passed explicitly (the source closes over `_get_time_spec`).
`best_3 = tuple(map(fmt, times[:3]))`; the fallthrough of the match is
unreachable because the branch requires at least 4 samples. -/
def timeitBody (fmt : ℚ → String) (times : List ℚ) : String :=
  if times.length < 4 then timeitShort fmt times
  else
    match times.take 3 with
    | [a, b, c] => timeitLong fmt times a b c
    | _ => ""

/-- The message the command sends for each outcome of the awaited
sampler: the fixed timeout notice, the boxed exception `repr`, or the
boxed statistics body. -/
def timeitMessage (fmt : ℚ → String) (r : AwaitResult) : String :=
  match r with
  | .timedOut => "Waited 15 seconds, task still isn't complete."
  | .failed e => box e "py"
  | .ok times => box (timeitBody fmt times) "py"

theorem box_head (text lang : String) : (box text lang).data.head? = some '`' := rfl

/-! ### Claim theorems for the dispatch and the report -/

/-- C7: the sampler is awaited under the fixed 15.0-second deadline; a
timeout is caught locally and reported as the fixed "still isn't
complete" notice.  Every statistics message and every captured-failure
message is a fenced block beginning with a backtick while the notice
begins with 'W', so the notice replaces statistics and the timeout never
surfaces as a raw failure. -/
theorem timeout_reported_not_raised :
    timeitDeadline = 15 ∧
    (∀ fmt : ℚ → String,
      timeitMessage fmt .timedOut = "Waited 15 seconds, task still isn't complete.") ∧
    (∀ (fmt : ℚ → String) (times : List ℚ),
      (timeitMessage fmt (.ok times)).data.head? = some '`') ∧
    (∀ (fmt : ℚ → String) (e : String),
      (timeitMessage fmt (.failed e)).data.head? = some '`') ∧
    "Waited 15 seconds, task still isn't complete.".data.head? = some 'W' :=
  ⟨rfl, fun _ => rfl, fun fmt times => box_head (timeitBody fmt times) "py",
    fun _ e => box_head e "py", rfl⟩

/-- C8: below 4 samples the report carries only the loop count and the
average; with at least 4 samples it additionally carries exactly the
first three elements of the (sorted) sample list — which are the three
smallest, in ascending order. -/
theorem report_top3_threshold (fmt : ℚ → String) (times : List ℚ) :
    (times.length < 4 → timeitBody fmt times = timeitShort fmt times) ∧
    (4 ≤ times.length → List.Sorted (· ≤ ·) times →
      ∃ a b c, times.take 3 = [a, b, c] ∧
        timeitBody fmt times = timeitLong fmt times a b c ∧
        a ≤ b ∧ b ≤ c ∧ (∀ x ∈ times, a ≤ x) ∧ ∀ x ∈ times.drop 3, c ≤ x) := by
  constructor
  · intro h
    rw [timeitBody, if_pos h]
  · intro h4 hsort
    match times, h4 with
    | a :: b :: c :: e :: rest, _ =>
      refine ⟨a, b, c, by simp [List.take_succ_cons], ?_, ?_, ?_, ?_, ?_⟩
      · rw [timeitBody, if_neg (by simp only [List.length_cons]; omega)]
        simp only [List.take_succ_cons, List.take_zero]
      · rw [List.sorted_cons] at hsort
        exact hsort.1 b (by simp)
      · rw [List.sorted_cons, List.sorted_cons] at hsort
        exact hsort.2.1 c (by simp)
      · intro x hx
        rw [List.sorted_cons] at hsort
        rcases List.mem_cons.1 hx with h | h
        · exact le_of_eq (congrArg id h).symm
        · exact hsort.1 x h
      · intro x hx
        rw [List.sorted_cons, List.sorted_cons, List.sorted_cons] at hsort
        exact hsort.2.2.1 x (by simpa using hx)

/-- Witness for C8: the two branches at a 3-sample and a 4-sample list. -/
theorem report_top3_threshold_witness :
    timeitBody (fun _ => "x") [0, 1, 2] = timeitShort (fun _ => "x") [0, 1, 2] ∧
    ∃ a b c, ([(0 : ℚ), 0, 0, 0].take 3 = [a, b, c] ∧
      timeitBody (fun _ => "x") [0, 0, 0, 0]
        = timeitLong (fun _ => "x") [0, 0, 0, 0] a b c ∧
      a ≤ b ∧ b ≤ c ∧ (∀ x ∈ [(0 : ℚ), 0, 0, 0], a ≤ x) ∧
      ∀ x ∈ ([(0 : ℚ), 0, 0, 0].drop 3), c ≤ x) :=
  ⟨(report_top3_threshold (fun _ => "x") [0, 1, 2]).1 (by simp),
   (report_top3_threshold (fun _ => "x") [0, 0, 0, 0]).2 (by simp)
     (by simp [List.sorted_cons])⟩

end TimeIt
